import Mathlib

/-!
Verification of `dashboard_benchmark.py`, an LLM benchmarking script.

Python strings are embedded as `List Char`; the regex substitutions of
`clean_code` are embedded as literal left-to-right scan-and-replace
functions (the patterns involved are literals, and `<think>.*?</think>`
with DOTALL and a non-greedy body matches from each leftmost `<think>`
to the first `</think>` after it).
-/

namespace Bench

/-- Predicate for Python `str.strip()` whitespace (ASCII). -/
def isPySpace (c : Char) : Bool :=
  c = ' ' || c = '\t' || c = '\n' || c = '\r' || c = '\x0b' || c = '\x0c'

/-- Python `s.strip()`: drop whitespace from both ends. -/
def stripL (s : List Char) : List Char :=
  ((s.dropWhile isPySpace).reverse.dropWhile isPySpace).reverse

/-- The literal pattern of `re.sub(r"```python", "", code)`. -/
def fencePyL : List Char := "```python".data

/-- The literal pattern of `re.sub(r"```", "", code)`. -/
def fenceL : List Char := "```".data

/-- Opening tag of the reasoning block removed by `clean_code`. -/
def openT : List Char := "<think>".data

/-- Closing tag of the reasoning block removed by `clean_code`. -/
def closeT : List Char := "</think>".data

/-- Fuel-indexed scan for `re.sub(pat, "", s)` with a literal pattern:
at each position, if the pattern starts here it is deleted and scanning
resumes after it, otherwise the character is kept.  One unit of fuel is
spent per step, so `s.length` fuel always suffices. -/
def replFuel (pat : List Char) : Nat → List Char → List Char
  | 0, s => s
  | _ + 1, [] => []
  | f + 1, c :: cs =>
    if pat.isPrefixOf (c :: cs) then replFuel pat f (List.drop pat.length (c :: cs))
    else c :: replFuel pat f cs

/-- Embedding of `re.sub(pat, "", s)` for a literal pattern `pat`. -/
def replaceAll (pat s : List Char) : List Char := replFuel pat s.length s

/-- Scan for the first occurrence of `</think>`; returns the text after it. -/
def afterClose : List Char → Option (List Char)
  | [] => none
  | c :: cs =>
    if closeT.isPrefixOf (c :: cs) then some (List.drop 8 (c :: cs))
    else afterClose cs

/-- Fuel-indexed embedding of `re.sub(r"<think>.*?</think>", "", s, flags=re.DOTALL)`:
at each `<think>` the scan deletes through the first following `</think>`
(if none exists anywhere after it, the pattern cannot match again and the
rest of the text is kept verbatim). -/
def rmThinkF : Nat → List Char → List Char
  | 0, s => s
  | _ + 1, [] => []
  | f + 1, c :: cs =>
    if openT.isPrefixOf (c :: cs) then
      match afterClose (List.drop 7 (c :: cs)) with
      | some post => rmThinkF f post
      | none => c :: cs
    else c :: rmThinkF f cs

/-- Embedding of the `<think>` block removal. -/
def removeThink (s : List Char) : List Char := rmThinkF s.length s

/-- Python `code.split('\n')`. -/
def splitLines : List Char → List (List Char)
  | [] => [[]]
  | c :: cs =>
    if c = '\n' then [] :: splitLines cs
    else
      match splitLines cs with
      | [] => [[c]]
      | l :: ls => (c :: l) :: ls

/-- Python `"\n".join(lines)`. -/
def joinLines (ls : List (List Char)) : List Char := List.intercalate ['\n'] ls

/-- Embedding of `line.strip().startswith("def ") or line.strip().startswith("@")`. -/
def startsDef (line : List Char) : Bool :=
  ("def ".data).isPrefixOf (stripL line) || ("@".data).isPrefixOf (stripL line)

/-- The three substitutions of `clean_code`, in source order. -/
def preClean (code : List Char) : List Char :=
  removeThink (replaceAll fenceL (replaceAll fencePyL code))

/-- The line-filtering and assembly part of `clean_code`: keep everything
from the first function-definition or decorator line on; if no such line
exists, fall back to the stripped (post-substitution) text; wrap in
newlines. -/
def cleanAfterSubs (t : List Char) : List Char :=
  let lines := splitLines t
  let cleanLines := lines.dropWhile (fun l => !startsDef l)
  if cleanLines.isEmpty then '\n' :: stripL t ++ ['\n']
  else '\n' :: joinLines cleanLines ++ ['\n']

/-- Embedding of `clean_code` from `dashboard_benchmark.py`. -/
def clean_code (code : List Char) : List Char := cleanAfterSubs (preClean code)

/-- Decidable check that `pat` occurs as a contiguous block inside `s`. -/
def containsSeq (pat : List Char) : List Char → Bool
  | [] => pat.isEmpty
  | c :: cs => pat.isPrefixOf (c :: cs) || containsSeq pat cs

/-! ## Verifier: `run_tests` -/

/-- The literal part of the pattern `(\d+) passed`. -/
def spassedL : List Char := " passed".data

/-- Python `int` of a digit string. -/
def digitsVal (ds : List Char) : Nat :=
  ds.foldl (fun a c => 10 * a + (c.toNat - 48)) 0

/-- Embedding of `re.search(r'(\d+) passed', out)` followed by
`int(match.group(1))`: at each position in reading order, `\d+` takes the
maximal digit run starting there (backtracking to a shorter run can never
help, since the next literal is a space); the first position where that
run is nonempty and is followed by `" passed"` wins. -/
def searchPassed : List Char → Option Nat
  | [] => none
  | c :: cs =>
    if (List.takeWhile Char.isDigit (c :: cs)).isEmpty then searchPassed cs
    else if spassedL.isPrefixOf (List.dropWhile Char.isDigit (c :: cs)) then
      some (digitsVal (List.takeWhile Char.isDigit (c :: cs)))
    else searchPassed cs

/-- Embedding of `passed = int(match.group(1)) if match else 0`. -/
def passedCount (stdout : List Char) : Nat := (searchPassed stdout).getD 0

/-- JSON values, as produced by `json.loads` on the security scanner's
output (the scanner reports integer severity counts, so numbers are
modelled as integers). -/
inductive Json where
  | null : Json
  | bool : Bool → Json
  | num : Int → Json
  | str : List Char → Json
  | arr : List Json → Json
  | obj : List (List Char × Json) → Json

/-- Embedding of Python `j.get(k, dflt)`: succeeds on a dict (returning
the stored value or the default), and raises `AttributeError` — modelled
as `Except.error` — on any non-dict value. -/
def pyGet (j : Json) (k : List Char) (dflt : Json) : Except Unit Json :=
  match j with
  | Json.obj kvs => Except.ok ((List.lookup k kvs).getD dflt)
  | _ => Except.error ()

/-- Embedding of Python `+` on the two looked-up severity counts: defined
on two numbers or two strings, a `TypeError` — modelled as
`Except.error` — otherwise. -/
def jadd : Json → Json → Except Unit Json
  | Json.num a, Json.num b => Except.ok (Json.num (a + b))
  | Json.str a, Json.str b => Except.ok (Json.str (a ++ b))
  | _, _ => Except.error ()

/-- Key of the high-severity bucket. -/
def hKey : List Char := "SEVERITY.HIGH".data

/-- Key of the medium-severity bucket. -/
def mKey : List Char := "SEVERITY.MEDIUM".data

/-- Embedding of `json.loads(res_sec.stdout).get('metrics', {}).get('_totals', {})`. -/
def getTotals (j : Json) : Except Unit Json :=
  match pyGet j ("metrics".data) (Json.obj []) with
  | Except.error e => Except.error e
  | Except.ok m => pyGet m ("_totals".data) (Json.obj [])

/-- The body of the `try:` block computing `security` in `run_tests`:
`metrics.get('SEVERITY.HIGH', 0) + metrics.get('SEVERITY.MEDIUM', 0)`,
with every raised exception propagating to the `except` clause. -/
def securityBody (j : Json) : Except Unit Json :=
  match getTotals j with
  | Except.error e => Except.error e
  | Except.ok t =>
    match pyGet t hKey (Json.num 0) with
    | Except.error e => Except.error e
    | Except.ok h =>
      match pyGet t mKey (Json.num 0) with
      | Except.error e => Except.error e
      | Except.ok m => jadd h m

/-- The final value of the `security` variable in `run_tests`: `0` when
`json.loads` failed (`none`, malformed output) and whenever anything in
the `try:` body raised (the bare `except: pass` swallows it), otherwise
the computed sum. -/
def securityResult (parsed : Option Json) : Json :=
  match parsed with
  | none => Json.num 0
  | some j =>
    match securityBody j with
    | Except.ok v => v
    | Except.error _ => Json.num 0

/-- Embedding of `run_tests`: the pair `(passed, security)` as a function
of the test runner's stdout and the parse of the scanner's stdout. -/
def run_tests (stdout : List Char) (scanParsed : Option Json) : Nat × Json :=
  (passedCount stdout, securityResult scanParsed)

/-! ## Trial loop and aggregation (`main`) -/

/-- Source constant: each model is run `ITERATIONS` times. -/
def ITERATIONS : Nat := 3

/-- The per-candidate counters `success_count, total_tokens, total_sec`. -/
structure Counters where
  success : Nat
  tokens : Nat
  sec : Nat
deriving DecidableEq

/-- Outcome of one iteration of the trial loop: either the `try:` body
raised during query/mutate/verify (`error`), or it ran to completion with
the verifier results `passed`, `security` and the reported token usage. -/
inductive TrialOutcome where
  | error : TrialOutcome
  | ok (passed : Nat) (security : Nat) (tokens : Nat) : TrialOutcome
deriving DecidableEq

/-- One iteration's effect on the counters, mirroring
`if passed >= 3032: success_count += 1`, `total_sec += security`,
`total_tokens += completion.usage.total_tokens`; on an exception the
`except` clause only prints and the counters are untouched. -/
def trialUpdate (c : Counters) : TrialOutcome → Counters
  | TrialOutcome.error => c
  | TrialOutcome.ok passed security tokens =>
    { success := c.success + (if 3032 ≤ passed then 1 else 0)
      tokens := c.tokens + tokens
      sec := c.sec + security }

/-- The trial loop for one candidate, starting from zeroed counters. -/
def runCandidate (trials : List TrialOutcome) : Counters :=
  trials.foldl trialUpdate ⟨0, 0, 0⟩

/-- Whether one iteration is counted as successful. -/
def successfulTrial : TrialOutcome → Bool
  | TrialOutcome.error => false
  | TrialOutcome.ok passed _ _ => 3032 ≤ passed

/-- Token contribution of one iteration (an errored iteration contributes zero). -/
def trialTokens : TrialOutcome → Nat
  | TrialOutcome.error => 0
  | TrialOutcome.ok _ _ tokens => tokens

/-- Security contribution of one iteration (an errored iteration contributes zero). -/
def trialSec : TrialOutcome → Nat
  | TrialOutcome.error => 0
  | TrialOutcome.ok _ security _ => security

/-- Rendering of a value to one decimal place, as the integer number of
tenths (the source renders `f"{q:.1f}%"`; at the reachable points
`q = s/3*100` for `s = 0..3` the nearest-tenth value is unambiguous). -/
def oneDecimalTenths (q : ℚ) : ℤ := round (10 * q)

/-- One candidate's row of the `results` list. -/
structure AggregateResult where
  consistencyTenths : ℤ
  avgTokens : Nat
  totalSec : Nat
deriving DecidableEq

/-- Embedding of the `results.append({...})` record:
`f"{(success_count / ITERATIONS) * 100:.1f}%"` (kept as tenths),
`int(total_tokens / ITERATIONS)` (floor division for these nonnegative
in-range values), and `total_sec`. -/
def aggregate (c : Counters) : AggregateResult :=
  { consistencyTenths := oneDecimalTenths ((c.success : ℚ) / (ITERATIONS : ℚ) * 100)
    avgTokens := c.tokens / ITERATIONS
    totalSec := c.sec }

/-! ## Cleanup (`try/finally` in `main`) -/

/-- Filesystem state visible to the script: the target file's content,
the committed (git HEAD) content of the target file — which the script
never changes — and the set of other existing paths. -/
structure FsState where
  target : List Char
  committed : List Char
  artifacts : List String
deriving DecidableEq

/-- The fixed artifact list of the `finally:` block. -/
def artifactPaths : List String := ["log.txt", "coverage", ".pytest_cache"]

/-- Effect of `subprocess.run(['git', 'checkout', '--', TARGET_FILE])`. -/
def gitCheckout (s : FsState) : FsState := { s with target := s.committed }

/-- Effects the benchmarking loop body can have on the filesystem:
the per-iteration reset, the append of generated code to the target, and
creation of artifact files by the external tools.  An exception anywhere
in the loop truncates the event list. -/
inductive RunEvent where
  | resetTarget : RunEvent
  | appendTarget (code : List Char) : RunEvent
  | addArtifact (p : String) : RunEvent

/-- Apply one loop-body event to the filesystem state. -/
def applyEvent (s : FsState) : RunEvent → FsState
  | RunEvent.resetTarget => gitCheckout s
  | RunEvent.appendTarget code => { s with target := s.target ++ code }
  | RunEvent.addArtifact p => { s with artifacts := p :: s.artifacts }

/-- The benchmarking loop body as a fold over its filesystem events. -/
def runBody (evs : List RunEvent) (s : FsState) : FsState :=
  evs.foldl applyEvent s

/-- Embedding of `if os.path.exists(p): ... remove p` inside the
`finally:` block. -/
def removeIfExists (s : FsState) (p : String) : FsState :=
  if p ∈ s.artifacts then { s with artifacts := s.artifacts.filter (fun q => q != p) }
  else s

/-- The `finally:` block: restore the target file via git checkout, then
remove each artifact path that exists. -/
def cleanup (s : FsState) : FsState :=
  artifactPaths.foldl removeIfExists (gitCheckout s)

/-- A whole run of `main`: the loop body performs some (arbitrary, possibly
exception-truncated) list of filesystem events, and the `finally:` block
always executes afterwards. -/
def mainRun (evs : List RunEvent) (s : FsState) : FsState :=
  cleanup (runBody evs s)

/-! ## Helper lemmas -/

lemma applyEvent_committed (s : FsState) (e : RunEvent) :
    (applyEvent s e).committed = s.committed := by
  cases e <;> rfl

lemma runBody_committed (evs : List RunEvent) (s : FsState) :
    (runBody evs s).committed = s.committed := by
  induction evs generalizing s with
  | nil => rfl
  | cons e evs ih =>
    show (runBody evs (applyEvent s e)).committed = s.committed
    rw [ih, applyEvent_committed]

lemma removeIfExists_target (s : FsState) (p : String) :
    (removeIfExists s p).target = s.target := by
  unfold removeIfExists; split <;> rfl

lemma mem_of_mem_removeIfExists {s : FsState} {p q : String}
    (h : q ∈ (removeIfExists s p).artifacts) : q ∈ s.artifacts := by
  unfold removeIfExists at h
  split at h
  · exact (List.mem_filter.mp h).1
  · exact h

lemma not_mem_removeIfExists_self (s : FsState) (p : String) :
    p ∉ (removeIfExists s p).artifacts := by
  unfold removeIfExists
  split
  · intro h
    have h2 := (List.mem_filter.mp h).2
    simp at h2
  · intro h
    exact absurd h (by assumption)

lemma not_mem_removeIfExists_of_not_mem {s : FsState} {q : String} (p : String)
    (h : q ∉ s.artifacts) : q ∉ (removeIfExists s p).artifacts :=
  fun hm => h (mem_of_mem_removeIfExists hm)

lemma foldl_trialUpdate (trials : List TrialOutcome) (c : Counters) :
    trials.foldl trialUpdate c =
      ⟨c.success + trials.countP successfulTrial,
       c.tokens + (trials.map trialTokens).sum,
       c.sec + (trials.map trialSec).sum⟩ := by
  induction trials generalizing c with
  | nil => simp
  | cons t ts ih =>
    rw [List.foldl_cons, ih]
    cases t with
    | error =>
      simp [trialUpdate, successfulTrial, trialTokens, trialSec, List.countP_cons]
    | ok p s tk =>
      by_cases h : 3032 ≤ p
      · simp only [trialUpdate, if_pos h, successfulTrial, trialTokens, trialSec,
          List.countP_cons, List.map_cons, List.sum_cons, Counters.mk.injEq,
          decide_eq_true_eq, if_pos h]
        refine ⟨by omega, by omega, by omega⟩
      · simp only [trialUpdate, if_neg h, successfulTrial, trialTokens, trialSec,
          List.countP_cons, List.map_cons, List.sum_cons, Counters.mk.injEq,
          decide_eq_true_eq, if_neg h]
        refine ⟨by omega, by omega, by omega⟩

lemma runCandidate_eq (trials : List TrialOutcome) :
    runCandidate trials =
      ⟨trials.countP successfulTrial, (trials.map trialTokens).sum,
       (trials.map trialSec).sum⟩ := by
  rw [runCandidate, foldl_trialUpdate]
  simp

lemma floor_ratCast_div_three (a : ℕ) : ⌊(a : ℚ) / 3⌋ = ((a / 3 : ℕ) : ℤ) := by
  rw [Int.floor_eq_iff]
  constructor
  · rw [le_div_iff₀ (by norm_num : (0:ℚ) < 3)]
    exact_mod_cast Nat.div_mul_le_self a 3
  · rw [div_lt_iff₀ (by norm_num : (0:ℚ) < 3)]
    have hlt : a < (a / 3 + 1) * 3 := by omega
    exact_mod_cast hlt

lemma oneDecimalTenths_bounds {q : ℚ} (h0 : 0 ≤ q) (h100 : q ≤ 100) :
    0 ≤ oneDecimalTenths q ∧ oneDecimalTenths q ≤ 1000 := by
  unfold oneDecimalTenths
  rw [round_eq]
  constructor
  · rw [Int.floor_nonneg]
    nlinarith
  · have hfl : (⌊(10 * q + 1 / 2 : ℚ)⌋ : ℤ) ≤ ⌊(1000 + 1 / 2 : ℚ)⌋ :=
      Int.floor_mono (by nlinarith)
    have he : (⌊(1000 + 1 / 2 : ℚ)⌋ : ℤ) = 1000 := by
      rw [Int.floor_eq_iff]
      norm_num
    omega

/-- Occurrence of the pattern `(\d+) passed` at position `i` of `s`: a
nonempty digit group followed by the literal `" passed"`.  (The group is
automatically the maximal digit run at `i`, since a space follows it.) -/
def specMatchAt (s : List Char) (i : Nat) : Prop :=
  ∃ d rest, List.drop i s = d ++ spassedL ++ rest ∧ d ≠ [] ∧ ∀ c ∈ d, c.isDigit = true

lemma isPrefixOf_append_self (l t : List Char) : l.isPrefixOf (l ++ t) = true :=
  List.isPrefixOf_iff_prefix.mpr (List.prefix_append l t)

lemma takeWhile_all_append (p : Char → Bool) (d : List Char) (x : Char) (r : List Char)
    (hd : ∀ c ∈ d, p c = true) (hx : p x = false) :
    List.takeWhile p (d ++ x :: r) = d ∧ List.dropWhile p (d ++ x :: r) = x :: r := by
  induction d with
  | nil => simp [List.takeWhile_cons, List.dropWhile_cons, hx]
  | cons c d ih =>
    have hc : p c = true := hd c (List.mem_cons_self c d)
    have ih2 := ih (fun a ha => hd a (List.mem_cons_of_mem c ha))
    simp [List.takeWhile_cons, List.dropWhile_cons, hc, ih2.1, ih2.2]

lemma searchPassed_cons (c : Char) (cs : List Char) :
    searchPassed (c :: cs) =
      if (List.takeWhile Char.isDigit (c :: cs)).isEmpty then searchPassed cs
      else if spassedL.isPrefixOf (List.dropWhile Char.isDigit (c :: cs)) then
        some (digitsVal (List.takeWhile Char.isDigit (c :: cs)))
      else searchPassed cs := rfl

lemma searchPassed_found (d rest s : List Char) (hs : s = d ++ spassedL ++ rest)
    (hne : d ≠ []) (hd : ∀ c ∈ d, c.isDigit = true) :
    searchPassed s = some (digitsVal d) := by
  subst hs
  rw [List.append_assoc]
  obtain ⟨c₀, d', rfl⟩ : ∃ c₀ d', d = c₀ :: d' := by
    cases d with
    | nil => exact absurd rfl hne
    | cons a b => exact ⟨a, b, rfl⟩
  have htw := takeWhile_all_append Char.isDigit (c₀ :: d') ' ' ("passed".data ++ rest) hd
    (by decide)
  have hstep : (c₀ :: d') ++ (spassedL ++ rest) =
      c₀ :: (d' ++ (' ' :: ("passed".data ++ rest))) := rfl
  rw [hstep, searchPassed_cons]
  have hstep2 : c₀ :: (d' ++ (' ' :: ("passed".data ++ rest))) =
      (c₀ :: d') ++ (' ' :: ("passed".data ++ rest)) := rfl
  rw [hstep2, htw.1, htw.2]
  have hsp : (' ' :: ("passed".data ++ rest)) = spassedL ++ rest := rfl
  rw [hsp, isPrefixOf_append_self]
  simp

lemma searchPassed_not_match (c : Char) (cs : List Char) (h : ¬ specMatchAt (c :: cs) 0) :
    searchPassed (c :: cs) = searchPassed cs := by
  simp only [searchPassed]
  by_cases h1 : (List.takeWhile Char.isDigit (c :: cs)).isEmpty = true
  · rw [if_pos h1]
  · rw [if_neg h1]
    by_cases h2 : spassedL.isPrefixOf (List.dropWhile Char.isDigit (c :: cs)) = true
    · exfalso
      apply h
      obtain ⟨t, ht⟩ : spassedL <+: List.dropWhile Char.isDigit (c :: cs) :=
        List.isPrefixOf_iff_prefix.mp h2
      refine ⟨List.takeWhile Char.isDigit (c :: cs), t, ?_, ?_, ?_⟩
      · rw [List.drop_zero]
        conv_lhs => rw [← List.takeWhile_append_dropWhile Char.isDigit (c :: cs)]
        rw [← ht, List.append_assoc]
      · intro he
        rw [he] at h1
        exact h1 rfl
      · intro x hx
        exact List.mem_takeWhile_imp hx
    · rw [if_neg h2]

lemma specMatchAt_cons_succ (c : Char) (cs : List Char) (i : Nat) :
    specMatchAt (c :: cs) (i + 1) ↔ specMatchAt cs i := Iff.rfl

lemma isPrefixOf_head_ne {p₀ c : Char} (pt cs : List Char) (h : p₀ ≠ c) :
    (p₀ :: pt).isPrefixOf (c :: cs) = false := by
  show (p₀ == c && pt.isPrefixOf cs) = false
  have hb : (p₀ == c) = false := beq_eq_false_iff_ne.mpr h
  rw [hb, Bool.false_and]

lemma replFuel_cons (pat : List Char) (f : Nat) (c : Char) (cs : List Char) :
    replFuel pat (f + 1) (c :: cs) =
      if pat.isPrefixOf (c :: cs) then replFuel pat f (List.drop pat.length (c :: cs))
      else c :: replFuel pat f cs := rfl

lemma replFuel_nil (pat : List Char) (f : Nat) : replFuel pat f [] = [] := by
  cases f <;> rfl

lemma replFuel_congr (p₀ : Char) (pt : List Char) :
    ∀ (f g : Nat) (s : List Char), s.length ≤ f → s.length ≤ g →
      replFuel (p₀ :: pt) f s = replFuel (p₀ :: pt) g s := by
  intro f
  induction f with
  | zero =>
    intro g s hf _
    have hs : s = [] := List.eq_nil_of_length_eq_zero (Nat.le_zero.mp hf)
    subst hs
    rw [replFuel_nil, replFuel_nil]
  | succ f ih =>
    intro g s hf hg
    cases s with
    | nil => rw [replFuel_nil, replFuel_nil]
    | cons c cs =>
      cases g with
      | zero => simp at hg
      | succ g =>
        rw [replFuel_cons, replFuel_cons]
        by_cases hp : (p₀ :: pt).isPrefixOf (c :: cs) = true
        · rw [if_pos hp, if_pos hp]
          apply ih
          · have : (List.drop (p₀ :: pt).length (c :: cs)).length ≤ cs.length := by
              rw [List.length_drop]
              simp only [List.length_cons]
              omega
            simp only [List.length_cons] at hf
            omega
          · have : (List.drop (p₀ :: pt).length (c :: cs)).length ≤ cs.length := by
              rw [List.length_drop]
              simp only [List.length_cons]
              omega
            simp only [List.length_cons] at hg
            omega
        · rw [if_neg hp, if_neg hp]
          have h1 : cs.length ≤ f := by
            simp only [List.length_cons] at hf
            omega
          have h2 : cs.length ≤ g := by
            simp only [List.length_cons] at hg
            omega
          rw [ih g cs h1 h2]

lemma replaceAll_cons_of_ne (p₀ : Char) (pt : List Char) (c : Char) (cs : List Char)
    (h : (p₀ :: pt).isPrefixOf (c :: cs) = false) :
    replaceAll (p₀ :: pt) (c :: cs) = c :: replaceAll (p₀ :: pt) cs := by
  show replFuel (p₀ :: pt) (cs.length + 1) (c :: cs) = c :: replFuel (p₀ :: pt) cs.length cs
  rw [replFuel_cons, h]
  simp

lemma replaceAll_prepend (p₀ : Char) (pt ys s : List Char) (hy : p₀ ∉ ys) :
    replaceAll (p₀ :: pt) (ys ++ s) = ys ++ replaceAll (p₀ :: pt) s := by
  induction ys with
  | nil => rfl
  | cons y ys ih =>
    have hne : p₀ ≠ y := fun he => hy (he ▸ List.mem_cons_self y ys)
    have hys : p₀ ∉ ys := fun hm => hy (List.mem_cons_of_mem y hm)
    rw [show (y :: ys) ++ s = y :: (ys ++ s) from rfl]
    rw [replaceAll_cons_of_ne p₀ pt y (ys ++ s) (isPrefixOf_head_ne pt (ys ++ s) hne)]
    rw [ih hys]
    rfl

lemma replaceAll_consume (p₀ : Char) (pt s : List Char) :
    replaceAll (p₀ :: pt) ((p₀ :: pt) ++ s) = replaceAll (p₀ :: pt) s := by
  show replFuel (p₀ :: pt) ((pt ++ s).length + 1) (p₀ :: (pt ++ s)) = replaceAll (p₀ :: pt) s
  rw [replFuel_cons]
  rw [show p₀ :: (pt ++ s) = (p₀ :: pt) ++ s from rfl]
  rw [isPrefixOf_append_self, if_pos rfl, List.drop_left]
  exact replFuel_congr p₀ pt _ _ s (by rw [List.length_append]; omega) (Nat.le_refl _)

lemma replaceAll_of_not_mem (p₀ : Char) (pt s : List Char) (h : p₀ ∉ s) :
    replaceAll (p₀ :: pt) s = s := by
  have hp := replaceAll_prepend p₀ pt s [] h
  have h0 : replaceAll (p₀ :: pt) ([] : List Char) = [] := rfl
  rw [List.append_nil, h0, List.append_nil] at hp
  exact hp

lemma afterClose_cons (c : Char) (cs : List Char) :
    afterClose (c :: cs) =
      if closeT.isPrefixOf (c :: cs) then some (List.drop 8 (c :: cs))
      else afterClose cs := rfl

lemma afterClose_length : ∀ (l p : List Char), afterClose l = some p → p.length + 8 ≤ l.length := by
  intro l
  induction l with
  | nil =>
    intro p h
    simp [afterClose] at h
  | cons c cs ih =>
    intro p h
    rw [afterClose_cons] at h
    by_cases hp : closeT.isPrefixOf (c :: cs) = true
    · rw [if_pos hp] at h
      obtain ⟨t, ht⟩ : closeT <+: (c :: cs) := List.isPrefixOf_iff_prefix.mp hp
      have hdrop : List.drop 8 (c :: cs) = t := by
        rw [← ht]
        exact List.drop_left' (by decide)
      rw [hdrop] at h
      have hpt : t = p := Option.some.inj h
      have hlen := congrArg List.length ht
      rw [List.length_append] at hlen
      have h8 : closeT.length = 8 := by decide
      subst hpt
      omega
    · rw [if_neg hp] at h
      have := ih p h
      simp only [List.length_cons]
      omega

lemma rmThinkF_nil (f : Nat) : rmThinkF f [] = [] := by
  cases f <;> rfl

lemma rmThinkF_cons (f : Nat) (c : Char) (cs : List Char) :
    rmThinkF (f + 1) (c :: cs) =
      if openT.isPrefixOf (c :: cs) then
        match afterClose (List.drop 7 (c :: cs)) with
        | some post => rmThinkF f post
        | none => c :: cs
      else c :: rmThinkF f cs := rfl

lemma rmThinkF_congr : ∀ (f g : Nat) (s : List Char), s.length ≤ f → s.length ≤ g →
    rmThinkF f s = rmThinkF g s := by
  intro f
  induction f with
  | zero =>
    intro g s hf _
    have hs : s = [] := List.eq_nil_of_length_eq_zero (Nat.le_zero.mp hf)
    subst hs
    rw [rmThinkF_nil, rmThinkF_nil]
  | succ f ih =>
    intro g s hf hg
    cases s with
    | nil => rw [rmThinkF_nil, rmThinkF_nil]
    | cons c cs =>
      cases g with
      | zero => simp at hg
      | succ g =>
        rw [rmThinkF_cons, rmThinkF_cons]
        by_cases hp : openT.isPrefixOf (c :: cs) = true
        · rw [if_pos hp, if_pos hp]
          cases hac : afterClose (List.drop 7 (c :: cs)) with
          | none => rfl
          | some post =>
            show rmThinkF f post = rmThinkF g post
            have hlen := afterClose_length _ post hac
            have hdl : (List.drop 7 (c :: cs)).length = (c :: cs).length - 7 :=
              List.length_drop 7 (c :: cs)
            simp only [List.length_cons] at hf hg hdl
            exact ih g post (by omega) (by omega)
        · rw [if_neg hp, if_neg hp]
          simp only [List.length_cons] at hf hg
          rw [ih g cs (by omega) (by omega)]

lemma isPrefixOf_openT_false (c : Char) (cs : List Char) (h : c ≠ '<') :
    openT.isPrefixOf (c :: cs) = false := by
  rw [show openT = '<' :: "think>".data from rfl]
  exact isPrefixOf_head_ne _ _ (Ne.symm h)

lemma isPrefixOf_closeT_false (c : Char) (cs : List Char) (h : c ≠ '<') :
    closeT.isPrefixOf (c :: cs) = false := by
  rw [show closeT = '<' :: "/think>".data from rfl]
  exact isPrefixOf_head_ne _ _ (Ne.symm h)

lemma removeThink_prepend (ys s : List Char) (hy : '<' ∉ ys) :
    removeThink (ys ++ s) = ys ++ removeThink s := by
  induction ys with
  | nil => rfl
  | cons y ys ih =>
    have hne : y ≠ '<' := fun he => hy (he ▸ List.mem_cons_self y ys)
    have hys : '<' ∉ ys := fun hm => hy (List.mem_cons_of_mem y hm)
    show rmThinkF ((ys ++ s).length + 1) (y :: (ys ++ s)) = (y :: ys) ++ removeThink s
    rw [rmThinkF_cons, isPrefixOf_openT_false y (ys ++ s) hne, if_neg Bool.false_ne_true]
    exact congrArg (List.cons y) (ih hys)

lemma removeThink_of_not_mem (s : List Char) (h : '<' ∉ s) : removeThink s = s := by
  have hp := removeThink_prepend s [] h
  rw [List.append_nil] at hp
  have h0 : removeThink ([] : List Char) = [] := rfl
  rw [h0, List.append_nil] at hp
  exact hp

lemma afterClose_mid (mid : List Char) (hm : '<' ∉ mid) (post : List Char) :
    afterClose (mid ++ (closeT ++ post)) = some post := by
  induction mid with
  | nil =>
    show afterClose (closeT ++ post) = some post
    rw [show closeT ++ post = '<' :: ("/think>".data ++ post) from rfl, afterClose_cons]
    rw [show ('<' :: ("/think>".data ++ post)) = closeT ++ post from rfl]
    rw [isPrefixOf_append_self, if_pos rfl]
    rw [List.drop_left' (by decide : closeT.length = 8)]
  | cons m mid ih =>
    have hne : m ≠ '<' := fun he => hm (he ▸ List.mem_cons_self m mid)
    have hmid : '<' ∉ mid := fun h => hm (List.mem_cons_of_mem m h)
    show afterClose (m :: (mid ++ (closeT ++ post))) = some post
    rw [afterClose_cons, isPrefixOf_closeT_false m _ hne, if_neg Bool.false_ne_true]
    exact ih hmid

lemma removeThink_block (mid post : List Char) (hm : '<' ∉ mid) :
    removeThink (openT ++ (mid ++ (closeT ++ post))) = removeThink post := by
  show rmThinkF (("think>".data ++ (mid ++ (closeT ++ post))).length + 1)
      ('<' :: ("think>".data ++ (mid ++ (closeT ++ post)))) = removeThink post
  rw [rmThinkF_cons]
  rw [show '<' :: ("think>".data ++ (mid ++ (closeT ++ post))) =
      openT ++ (mid ++ (closeT ++ post)) from rfl]
  rw [isPrefixOf_append_self, if_pos rfl]
  rw [List.drop_left' (by decide : openT.length = 7)]
  rw [afterClose_mid mid hm post]
  show rmThinkF ("think>".data ++ (mid ++ (closeT ++ post))).length post = removeThink post
  apply rmThinkF_congr
  · simp only [List.length_append]
    have h8 : closeT.length = 8 := by decide
    omega
  · exact Nat.le_refl _

lemma splitLines_cons (c : Char) (cs : List Char) :
    splitLines (c :: cs) =
      if c = '\n' then [] :: splitLines cs
      else match splitLines cs with
        | [] => [[c]]
        | l :: ls => (c :: l) :: ls := by
  simp only [splitLines]

lemma splitLines_cons_newline (s : List Char) : splitLines ('\n' :: s) = [] :: splitLines s := by
  rw [splitLines_cons, if_pos rfl]

lemma splitLines_ne_nil (s : List Char) : splitLines s ≠ [] := by
  cases s with
  | nil => simp [splitLines]
  | cons c cs =>
    rw [splitLines_cons]
    by_cases hc : c = '\n'
    · rw [if_pos hc]
      simp
    · rw [if_neg hc]
      cases h : splitLines cs <;> simp

lemma splitLines_cons_of_ne (c : Char) (cs : List Char) (hc : ¬ c = '\n') (l : List Char)
    (ls : List (List Char)) (h : splitLines cs = l :: ls) :
    splitLines (c :: cs) = (c :: l) :: ls := by
  rw [splitLines_cons, if_neg hc, h]

lemma splitLines_append_newline (s : List Char) :
    splitLines (s ++ ['\n']) = splitLines s ++ [[]] := by
  induction s with
  | nil => rfl
  | cons c s ih =>
    by_cases hc : c = '\n'
    · subst hc
      rw [show ('\n' :: s) ++ ['\n'] = '\n' :: (s ++ ['\n']) from rfl]
      rw [splitLines_cons_newline, ih, splitLines_cons_newline]
      rfl
    · obtain ⟨l, ls, hls⟩ : ∃ l ls, splitLines s = l :: ls := by
        cases h : splitLines s with
        | nil => exact absurd h (splitLines_ne_nil s)
        | cons a b => exact ⟨a, b, rfl⟩
      rw [show (c :: s) ++ ['\n'] = c :: (s ++ ['\n']) from rfl]
      rw [splitLines_cons_of_ne c (s ++ ['\n']) hc l (ls ++ [[]]) (by rw [ih, hls]; rfl)]
      rw [splitLines_cons_of_ne c s hc l ls hls]
      rfl

lemma stripL_wrap (s : List Char) : stripL ('\n' :: (s ++ ['\n'])) = stripL s := by
  unfold stripL
  rw [List.dropWhile_cons_of_pos (by decide : isPySpace '\n' = true)]
  rw [List.dropWhile_append]
  by_cases h : (s.dropWhile isPySpace).isEmpty = true
  · rw [if_pos h]
    rw [show List.dropWhile isPySpace ['\n'] = [] from by decide]
    have hs : s.dropWhile isPySpace = [] := by
      cases hh : List.dropWhile isPySpace s with
      | nil => rfl
      | cons a b =>
        rw [hh] at h
        simp at h
    rw [hs]
  · rw [if_neg h]
    rw [List.reverse_append]
    rw [show (['\n'] : List Char).reverse = ['\n'] from rfl]
    rw [List.singleton_append]
    rw [List.dropWhile_cons_of_pos (by decide : isPySpace '\n' = true)]

lemma cleanAfterSubs_fallback (t : List Char) (h : ∀ l ∈ splitLines t, startsDef l = false) :
    cleanAfterSubs t = '\n' :: stripL t ++ ['\n'] := by
  simp only [cleanAfterSubs]
  have hd : (splitLines t).dropWhile (fun l => !startsDef l) = [] := by
    rw [List.dropWhile_eq_nil_iff]
    intro x hx
    rw [h x hx]
    rfl
  rw [hd]
  rfl

lemma cleanAfterSubs_shape (t : List Char) :
    ∃ X : List Char, cleanAfterSubs t = '\n' :: X ++ ['\n'] := by
  simp only [cleanAfterSubs]
  by_cases h : ((splitLines t).dropWhile (fun l => !startsDef l)).isEmpty = true
  · exact ⟨stripL t, by rw [if_pos h]⟩
  · exact ⟨joinLines ((splitLines t).dropWhile (fun l => !startsDef l)), by rw [if_neg h]⟩

lemma replaceAll_fencePy_id (s : List Char) (h : '`' ∉ s) : replaceAll fencePyL s = s :=
  replaceAll_of_not_mem '`' ("``python".data) s h

lemma replaceAll_fence_id (s : List Char) (h : '`' ∉ s) : replaceAll fenceL s = s :=
  replaceAll_of_not_mem '`' ("``".data) s h

lemma replaceAll_fencePy_consume (s : List Char) :
    replaceAll fencePyL (fencePyL ++ s) = replaceAll fencePyL s :=
  replaceAll_consume '`' ("``python".data) s

lemma replaceAll_fencePy_prepend (ys s : List Char) (h : '`' ∉ ys) :
    replaceAll fencePyL (ys ++ s) = ys ++ replaceAll fencePyL s :=
  replaceAll_prepend '`' ("``python".data) ys s h

lemma replaceAll_fence_prepend (ys s : List Char) (h : '`' ∉ ys) :
    replaceAll fenceL (ys ++ s) = ys ++ replaceAll fenceL s :=
  replaceAll_prepend '`' ("``".data) ys s h

/-! ## Claims -/

/-- C1: whether the benchmarking loop completes normally or raises (any
event list, in particular any exception-truncated one), the `finally:`
block still runs: the target file is restored to its committed content by
the git checkout, and none of the fixed artifact paths survives the run. -/
theorem C1_cleanup_invariant (evs : List RunEvent) (s0 : FsState) :
    (mainRun evs s0).target = s0.committed ∧
    ∀ p ∈ artifactPaths, p ∉ (mainRun evs s0).artifacts := by
  have hrun : mainRun evs s0 =
      removeIfExists (removeIfExists
        (removeIfExists (gitCheckout (runBody evs s0)) "log.txt") "coverage") ".pytest_cache" :=
    rfl
  constructor
  · rw [hrun, removeIfExists_target, removeIfExists_target, removeIfExists_target]
    show (runBody evs s0).committed = s0.committed
    exact runBody_committed evs s0
  · intro p hp
    rw [hrun]
    have hp3 : p = "log.txt" ∨ p = "coverage" ∨ p = ".pytest_cache" := by
      simpa [artifactPaths] using hp
    rcases hp3 with rfl | rfl | rfl
    · exact not_mem_removeIfExists_of_not_mem _
        (not_mem_removeIfExists_of_not_mem _ (not_mem_removeIfExists_self _ _))
    · exact not_mem_removeIfExists_of_not_mem _ (not_mem_removeIfExists_self _ _)
    · exact not_mem_removeIfExists_self _ _

/-- C1 witness: a concrete run that appends to the target and creates an
artifact; afterwards the target equals the committed content and the
artifact is gone. -/
theorem C1_cleanup_invariant_witness :
    (mainRun [RunEvent.appendTarget "code".data, RunEvent.addArtifact "log.txt"]
        ⟨"x".data, "orig".data, []⟩).target = "orig".data ∧
    "log.txt" ∉ (mainRun [RunEvent.appendTarget "code".data, RunEvent.addArtifact "log.txt"]
        ⟨"x".data, "orig".data, []⟩).artifacts := by
  have h := C1_cleanup_invariant
    [RunEvent.appendTarget "code".data, RunEvent.addArtifact "log.txt"]
    ⟨"x".data, "orig".data, []⟩
  exact ⟨h.1, h.2 "log.txt" (by decide)⟩

/-- C2: an iteration whose query/mutate/verify step raised is treated as
failed and contributes nothing: the counters are unchanged, and the
iteration carries no success credit, no tokens and no security findings. -/
theorem C2_exception_no_contribution (c : Counters) :
    trialUpdate c TrialOutcome.error = c ∧
    successfulTrial TrialOutcome.error = false ∧
    trialTokens TrialOutcome.error = 0 ∧
    trialSec TrialOutcome.error = 0 :=
  ⟨rfl, rfl, rfl, rfl⟩

/-- C7: a completed trial is counted as successful (the success counter is
incremented) precisely when the verifier's passed-count reaches the fixed
threshold 3032; an errored trial is never counted. -/
theorem C7_success_threshold (c : Counters) (p s t : Nat) :
    ((trialUpdate c (TrialOutcome.ok p s t)).success = c.success + 1 ↔ 3032 ≤ p) ∧
    (successfulTrial (TrialOutcome.ok p s t) = true ↔ 3032 ≤ p) ∧
    (trialUpdate c TrialOutcome.error).success = c.success := by
  refine ⟨?_, ?_, rfl⟩
  · by_cases h : 3032 ≤ p
    · simp [trialUpdate, h]
    · simp only [trialUpdate, if_neg h]
      constructor
      · intro he
        omega
      · intro he
        exact absurd he h
  · simp [successfulTrial]

/-- C10: the success counter gains at most one per iteration, so it never
exceeds the iteration count, and the rendered consistency percentage lies
between 0.0% and 100.0% (0 and 1000 tenths). -/
theorem C10_consistency_bounds :
    (∀ trials : List TrialOutcome, (runCandidate trials).success ≤ trials.length) ∧
    (∀ trials : List TrialOutcome, trials.length = ITERATIONS →
      (runCandidate trials).success ≤ ITERATIONS ∧
      0 ≤ (aggregate (runCandidate trials)).consistencyTenths ∧
      (aggregate (runCandidate trials)).consistencyTenths ≤ 1000) := by
  have hsucc : ∀ trials : List TrialOutcome, (runCandidate trials).success ≤ trials.length := by
    intro trials
    have h : (runCandidate trials).success = trials.countP successfulTrial := by
      rw [runCandidate_eq]
    rw [h]
    exact List.countP_le_length _
  refine ⟨hsucc, ?_⟩
  intro trials hlen
  have h3 : (runCandidate trials).success ≤ 3 := by
    have h := hsucc trials
    rw [hlen] at h
    exact h
  have hagg : (aggregate (runCandidate trials)).consistencyTenths =
      oneDecimalTenths (((runCandidate trials).success : ℚ) / (ITERATIONS : ℚ) * 100) := rfl
  have hq0 : 0 ≤ ((runCandidate trials).success : ℚ) / (ITERATIONS : ℚ) * 100 := by
    positivity
  have hq100 : ((runCandidate trials).success : ℚ) / (ITERATIONS : ℚ) * 100 ≤ 100 := by
    have hcast : ((runCandidate trials).success : ℚ) ≤ 3 := by exact_mod_cast h3
    have hIT : ((ITERATIONS : ℕ) : ℚ) = 3 := by norm_num [ITERATIONS]
    rw [hIT, div_mul_eq_mul_div, div_le_iff₀ (by norm_num : (0:ℚ) < 3)]
    nlinarith
  have hb := oneDecimalTenths_bounds hq0 hq100
  exact ⟨h3, by rw [hagg]; exact hb.1, by rw [hagg]; exact hb.2⟩

/-- C10 witness: a concrete three-iteration run with one success. -/
theorem C10_consistency_bounds_witness :
    (runCandidate [TrialOutcome.ok 3032 0 10, TrialOutcome.error,
        TrialOutcome.ok 0 0 10]).success ≤ ITERATIONS ∧
    0 ≤ (aggregate (runCandidate [TrialOutcome.ok 3032 0 10, TrialOutcome.error,
        TrialOutcome.ok 0 0 10])).consistencyTenths ∧
    (aggregate (runCandidate [TrialOutcome.ok 3032 0 10, TrialOutcome.error,
        TrialOutcome.ok 0 0 10])).consistencyTenths ≤ 1000 :=
  C10_consistency_bounds.2
    [TrialOutcome.ok 3032 0 10, TrialOutcome.error, TrialOutcome.ok 0 0 10] rfl

/-- C3 counterexample: with token counts 100, 100, 101 (all iterations
completing), the reported average-token figure is `int(301 / 3) = 100`,
which is not the arithmetic mean 301/3; so "average tokens = the
arithmetic mean" fails as stated. -/
theorem C3_counterexample :
    ([TrialOutcome.ok 3032 0 100, TrialOutcome.ok 3032 0 100,
        TrialOutcome.ok 3032 0 101] : List TrialOutcome).length = ITERATIONS ∧
    ((aggregate (runCandidate [TrialOutcome.ok 3032 0 100, TrialOutcome.ok 3032 0 100,
        TrialOutcome.ok 3032 0 101])).avgTokens : ℚ) ≠
      ((([TrialOutcome.ok 3032 0 100, TrialOutcome.ok 3032 0 100,
        TrialOutcome.ok 3032 0 101] : List TrialOutcome).map trialTokens).sum : ℚ) /
        (ITERATIONS : ℚ) := by
  refine ⟨rfl, ?_⟩
  have ha : (aggregate (runCandidate [TrialOutcome.ok 3032 0 100, TrialOutcome.ok 3032 0 100,
      TrialOutcome.ok 3032 0 101])).avgTokens = 100 := rfl
  have hs : (([TrialOutcome.ok 3032 0 100, TrialOutcome.ok 3032 0 100,
      TrialOutcome.ok 3032 0 101] : List TrialOutcome).map trialTokens).sum = 301 := rfl
  rw [ha, hs]
  norm_num [ITERATIONS]

/-- C3 (amended): the aggregate for a candidate run of `ITERATIONS`
trials has consistency = success count over iteration count times 100,
rendered to one decimal place; average tokens = the arithmetic mean of
token usage over the iteration count (errored iterations counting zero)
truncated to an integer (floor); and total security = the sum of
per-iteration security counts. -/
theorem C3_aggregation (trials : List TrialOutcome) (h : trials.length = ITERATIONS) :
    (aggregate (runCandidate trials)).consistencyTenths =
      round (((trials.countP successfulTrial : ℚ) * 1000) / (trials.length : ℚ)) ∧
    ((aggregate (runCandidate trials)).avgTokens : ℤ) =
      ⌊(((trials.map trialTokens).sum : ℚ)) / (trials.length : ℚ)⌋ ∧
    (aggregate (runCandidate trials)).totalSec = (trials.map trialSec).sum := by
  rw [runCandidate_eq, h]
  refine ⟨?_, ?_, rfl⟩
  · show oneDecimalTenths ((trials.countP successfulTrial : ℚ) / ((ITERATIONS : ℕ) : ℚ) * 100) = _
    unfold oneDecimalTenths ITERATIONS
    congr 1
    push_cast
    ring
  · show (((trials.map trialTokens).sum / ITERATIONS : ℕ) : ℤ) = _
    unfold ITERATIONS
    rw [show (((3:ℕ) : ℚ)) = (3 : ℚ) by push_cast; ring]
    exact (floor_ratCast_div_three _).symm

/-- C3 witness: successes true/false/true over 3 iterations give 66.7%
consistency, and token counts 100, 200, 300 give average tokens 200. -/
theorem C3_aggregation_witness :
    (aggregate (runCandidate [TrialOutcome.ok 3032 0 100, TrialOutcome.ok 0 0 200,
        TrialOutcome.ok 3032 5 300])).consistencyTenths = 667 ∧
    (aggregate (runCandidate [TrialOutcome.ok 3032 0 100, TrialOutcome.ok 0 0 200,
        TrialOutcome.ok 3032 5 300])).avgTokens = 200 ∧
    (aggregate (runCandidate [TrialOutcome.ok 3032 0 100, TrialOutcome.ok 0 0 200,
        TrialOutcome.ok 3032 5 300])).totalSec = 5 := by
  have h := C3_aggregation
    [TrialOutcome.ok 3032 0 100, TrialOutcome.ok 0 0 200, TrialOutcome.ok 3032 5 300] rfl
  refine ⟨?_, rfl, rfl⟩
  rw [h.1]
  have hc : ([TrialOutcome.ok 3032 0 100, TrialOutcome.ok 0 0 200,
      TrialOutcome.ok 3032 5 300] : List TrialOutcome).countP successfulTrial = 2 := rfl
  have hl : ([TrialOutcome.ok 3032 0 100, TrialOutcome.ok 0 0 200,
      TrialOutcome.ok 3032 5 300] : List TrialOutcome).length = 3 := rfl
  rw [hc, hl, round_eq]
  have : ((2 : ℕ) : ℚ) * 1000 / ((3 : ℕ) : ℚ) + 1 / 2 = 4003 / 6 := by
    norm_num
  rw [this, Int.floor_eq_iff]
  norm_num

/-- C5: the verifier's passed-count is the integer captured at the first
(leftmost) occurrence of the pattern "N passed" in the test runner's
stdout, and 0 when the pattern never occurs; in particular
"12 passed, 3 skipped" gives 12 and a matchless output gives 0. -/
theorem C5_passed_count :
    (∀ (s : List Char) (i : Nat) (d rest : List Char),
      List.drop i s = d ++ spassedL ++ rest → d ≠ [] → (∀ c ∈ d, c.isDigit = true) →
      (∀ j, j < i → ¬ specMatchAt s j) → passedCount s = digitsVal d) ∧
    (∀ s : List Char, (∀ i, ¬ specMatchAt s i) → passedCount s = 0) ∧
    passedCount ("12 passed, 3 skipped".data) = 12 ∧
    passedCount ("all checks done".data) = 0 := by
  have main : ∀ (i : Nat) (s d rest : List Char),
      List.drop i s = d ++ spassedL ++ rest → d ≠ [] → (∀ c ∈ d, c.isDigit = true) →
      (∀ j, j < i → ¬ specMatchAt s j) → passedCount s = digitsVal d := by
    intro i
    induction i with
    | zero =>
      intro s d rest hdec hne hd _
      rw [List.drop_zero] at hdec
      rw [passedCount, searchPassed_found d rest s hdec hne hd]
      rfl
    | succ i ih =>
      intro s d rest hdec hne hd hmin
      cases s with
      | nil =>
        rw [List.drop_nil] at hdec
        cases d with
        | nil => exact absurd rfl hne
        | cons a b => simp at hdec
      | cons c cs =>
        have h0 : ¬ specMatchAt (c :: cs) 0 := hmin 0 (Nat.succ_pos i)
        rw [passedCount, searchPassed_not_match c cs h0]
        exact ih cs d rest hdec hne hd
          (fun j hj hm => hmin (j + 1) (Nat.succ_lt_succ hj)
            ((specMatchAt_cons_succ c cs j).mpr hm))
  refine ⟨fun s i d rest h1 h2 h3 h4 => main i s d rest h1 h2 h3 h4, ?_, ?_, ?_⟩
  · intro s
    induction s with
    | nil =>
      intro _
      rfl
    | cons c cs ih =>
      intro hall
      rw [passedCount, searchPassed_not_match c cs (hall 0)]
      exact ih (fun i hm => hall (i + 1) ((specMatchAt_cons_succ c cs i).mpr hm))
  · decide
  · decide

/-- C5 witness: applying the first-occurrence characterisation at the
concrete stdout "12 passed, 3 skipped" (match at position 0, digit group
"12") yields 12. -/
theorem C5_passed_count_witness :
    passedCount ("12 passed, 3 skipped".data) = digitsVal ("12".data) :=
  C5_passed_count.1 ("12 passed, 3 skipped".data) 0 ("12".data) (", 3 skipped".data)
    (by decide) (by decide) (by decide) (fun j hj => absurd hj (Nat.not_lt_zero j))

/-- C6: the verifier's security count is the sum of the high- and
medium-severity totals when the scanner's JSON parses and the totals
fields are numeric (absent fields defaulting to 0), and it is 0 when the
output is malformed (`none`) or when anything in the parsing path raises
— the bare `except` swallows every such exception. -/
theorem C6_security_count (p : Option Json) :
    (p = none → securityResult p = Json.num 0) ∧
    (∀ j, p = some j → securityBody j = Except.error () → securityResult p = Json.num 0) ∧
    (∀ j t h m, p = some j → getTotals j = Except.ok t →
      pyGet t hKey (Json.num 0) = Except.ok (Json.num h) →
      pyGet t mKey (Json.num 0) = Except.ok (Json.num m) →
      securityResult p = Json.num (h + m)) := by
  refine ⟨?_, ?_, ?_⟩
  · rintro rfl
    rfl
  · rintro j rfl herr
    simp [securityResult, herr]
  · rintro j t h m rfl ht hh hm
    simp [securityResult, securityBody, ht, hh, hm, jadd]

/-- C6 witness: a well-formed scanner report with HIGH = 2 and MEDIUM = 1
yields security count 3. -/
theorem C6_security_count_witness :
    securityResult (some (Json.obj [("metrics".data,
      Json.obj [("_totals".data,
        Json.obj [(hKey, Json.num 2), (mKey, Json.num 1)])])])) = Json.num 3 := by
  have h := (C6_security_count (some (Json.obj [("metrics".data,
      Json.obj [("_totals".data,
        Json.obj [(hKey, Json.num 2), (mKey, Json.num 1)])])]))).2.2
    (Json.obj [("metrics".data, Json.obj [("_totals".data,
      Json.obj [(hKey, Json.num 2), (mKey, Json.num 1)])])])
    (Json.obj [(hKey, Json.num 2), (mKey, Json.num 1)]) 2 1 rfl rfl rfl rfl
  exact h

/-- C4 counterexample: a fenced response whose content is a function
definition.  The extractor keeps the empty line left behind by the closing
fence, so the output ends in two newlines and is not the trimmed fenced
content wrapped in single newlines. -/
theorem C4_counterexample :
    "```python\ndef f():\n    pass\n```".data =
      fencePyL ++ ('\n' :: ("def f():\n    pass".data ++ ('\n' :: fenceL))) ∧
    clean_code ("```python\ndef f():\n    pass\n```".data) ≠
      '\n' :: stripL ("def f():\n    pass".data) ++ ['\n'] := by
  constructor
  · decide
  · decide

/-- C4 (amended): for a response consisting of content wrapped in code
fences, where the content contains no function-definition or decorator
line and no stray fence or reasoning-tag characters (no backtick, no
opening angle bracket), the extractor's output equals the fenced content
trimmed and wrapped in one leading and one trailing newline.  (The
original unrestricted claim fails when the content has a `def`/decorator
line, as the counterexample shows.) -/
theorem C4_extractor_fenced (content : List Char)
    (h1 : '`' ∉ content) (h2 : '<' ∉ content)
    (h3 : ∀ l ∈ splitLines content, startsDef l = false) :
    clean_code (fencePyL ++ ('\n' :: (content ++ ('\n' :: fenceL)))) =
      '\n' :: stripL content ++ ['\n'] := by
  have hyne : '`' ∉ ('\n' :: (content ++ ['\n'])) := by
    intro hm
    rcases List.mem_cons.mp hm with he | hm2
    · exact absurd he (by decide)
    · rcases List.mem_append.mp hm2 with h | h
      · exact h1 h
      · rw [List.mem_singleton] at h
        exact absurd h (by decide)
  have hylt : '<' ∉ ('\n' :: (content ++ ['\n'])) := by
    intro hm
    rcases List.mem_cons.mp hm with he | hm2
    · exact absurd he (by decide)
    · rcases List.mem_append.mp hm2 with h | h
      · exact h2 h
      · rw [List.mem_singleton] at h
        exact absurd h (by decide)
  have hys : '\n' :: (content ++ ('\n' :: fenceL)) = ('\n' :: (content ++ ['\n'])) ++ fenceL := by
    simp [List.append_assoc]
  have e2 : replaceAll fencePyL (('\n' :: (content ++ ['\n'])) ++ fenceL) =
      ('\n' :: (content ++ ['\n'])) ++ fenceL := by
    rw [replaceAll_fencePy_prepend _ _ hyne]
    rw [show replaceAll fencePyL fenceL = fenceL from by decide]
  have e3 : replaceAll fenceL (('\n' :: (content ++ ['\n'])) ++ fenceL) =
      '\n' :: (content ++ ['\n']) := by
    rw [replaceAll_fence_prepend _ _ hyne]
    rw [show replaceAll fenceL fenceL = [] from by decide]
    rw [List.append_nil]
  have hlines : ∀ l ∈ splitLines ('\n' :: (content ++ ['\n'])), startsDef l = false := by
    rw [splitLines_cons_newline, splitLines_append_newline]
    intro l hl
    rcases List.mem_cons.mp hl with rfl | hl2
    · decide
    · rcases List.mem_append.mp hl2 with h | h
      · exact h3 l h
      · rw [List.mem_singleton] at h
        subst h
        decide
  calc clean_code (fencePyL ++ ('\n' :: (content ++ ('\n' :: fenceL))))
      = cleanAfterSubs (removeThink (replaceAll fenceL
          (replaceAll fencePyL (fencePyL ++ ('\n' :: (content ++ ('\n' :: fenceL))))))) := rfl
    _ = cleanAfterSubs (removeThink (replaceAll fenceL
          (replaceAll fencePyL (('\n' :: (content ++ ['\n'])) ++ fenceL)))) := by
        rw [replaceAll_fencePy_consume, hys]
    _ = cleanAfterSubs (removeThink ('\n' :: (content ++ ['\n']))) := by
        rw [e2, e3]
    _ = cleanAfterSubs ('\n' :: (content ++ ['\n'])) := by
        rw [removeThink_of_not_mem _ hylt]
    _ = '\n' :: stripL ('\n' :: (content ++ ['\n'])) ++ ['\n'] :=
        cleanAfterSubs_fallback _ hlines
    _ = '\n' :: stripL content ++ ['\n'] := by
        rw [stripL_wrap]

/-- C4 witness: the fenced response with content "x = 1" comes out as the
trimmed content wrapped in newlines. -/
theorem C4_extractor_fenced_witness :
    clean_code ("```python\nx = 1\n```".data) = '\n' :: stripL ("x = 1".data) ++ ['\n'] := by
  have he : "```python\nx = 1\n```".data =
      fencePyL ++ ('\n' :: ("x = 1".data ++ ('\n' :: fenceL))) := by decide
  rw [he]
  exact C4_extractor_fenced ("x = 1".data) (by decide) (by decide) (by decide)

/-- C8 counterexample: the response `<thin<think>x</think>k>x</think>`
contains the delimited reasoning block `<think>x</think>`, yet after the
single left-to-right substitution pass the surrounding fragments re-form
exactly that text, so the block's text occurs in the extractor's output. -/
theorem C8_counterexample :
    "<thin<think>x</think>k>x</think>".data =
      "<thin".data ++ (openT ++ ("x".data ++ (closeT ++ "k>x</think>".data))) ∧
    containsSeq (openT ++ ("x".data ++ closeT))
      (clean_code ("<thin<think>x</think>k>x</think>".data)) = true := by
  constructor
  · decide
  · decide

/-- C8 (amended): the extractor deletes each delimited reasoning block:
whenever the fragments around the block contain no reasoning-tag opening
character (no stray partial tags) and no fence characters, the output
equals the extractor applied to the response with the block (tags and
contents) deleted — in particular the block's text is absent whenever it
does not reoccur in the remaining text.  (The original universal absence
claim fails when adjacent fragments re-form a block, as the
counterexample shows.) -/
theorem C8_think_removal (pre mid post : List Char)
    (hb1 : '`' ∉ pre) (hb2 : '`' ∉ mid) (hb3 : '`' ∉ post)
    (hl1 : '<' ∉ pre) (hl2 : '<' ∉ mid) :
    clean_code (pre ++ (openT ++ (mid ++ (closeT ++ post)))) = clean_code (pre ++ post) := by
  have hno1 : '`' ∉ (pre ++ (openT ++ (mid ++ (closeT ++ post)))) := by
    intro hm
    rcases List.mem_append.mp hm with h | h
    · exact hb1 h
    rcases List.mem_append.mp h with h | h
    · exact absurd h (by decide)
    rcases List.mem_append.mp h with h | h
    · exact hb2 h
    rcases List.mem_append.mp h with h | h
    · exact absurd h (by decide)
    · exact hb3 h
  have hno2 : '`' ∉ (pre ++ post) := by
    intro hm
    rcases List.mem_append.mp hm with h | h
    · exact hb1 h
    · exact hb3 h
  calc clean_code (pre ++ (openT ++ (mid ++ (closeT ++ post))))
      = cleanAfterSubs (removeThink (replaceAll fenceL
          (replaceAll fencePyL (pre ++ (openT ++ (mid ++ (closeT ++ post))))))) := rfl
    _ = cleanAfterSubs (removeThink (pre ++ (openT ++ (mid ++ (closeT ++ post))))) := by
        rw [replaceAll_fencePy_id _ hno1, replaceAll_fence_id _ hno1]
    _ = cleanAfterSubs (pre ++ removeThink post) := by
        rw [removeThink_prepend pre _ hl1, removeThink_block mid post hl2]
    _ = cleanAfterSubs (removeThink (pre ++ post)) := by
        rw [removeThink_prepend pre post hl1]
    _ = cleanAfterSubs (removeThink (replaceAll fenceL (replaceAll fencePyL (pre ++ post)))) := by
        rw [replaceAll_fencePy_id _ hno2, replaceAll_fence_id _ hno2]
    _ = clean_code (pre ++ post) := rfl

/-- C8 witness: removing the reasoning block from a concrete response
gives the same output as the response without the block. -/
theorem C8_think_removal_witness :
    clean_code ("abc".data ++ (openT ++ ("some reasoning".data ++
        (closeT ++ "\ndef f(): pass".data)))) =
      clean_code ("abc".data ++ "\ndef f(): pass".data) :=
  C8_think_removal ("abc".data) ("some reasoning".data) ("\ndef f(): pass".data)
    (by decide) (by decide) (by decide) (by decide) (by decide)

/-- C9 counterexample: the input "```\nx\n```" has no function-definition
or decorator line, yet the fallback output is not the trimmed raw input
wrapped in newlines — the fallback strips the post-substitution text (the
fences are already gone), not the raw text. -/
theorem C9_counterexample :
    (∀ l ∈ splitLines ("```\nx\n```".data), startsDef l = false) ∧
    clean_code ("```\nx\n```".data) ≠
      '\n' :: stripL ("```\nx\n```".data) ++ ['\n'] := by
  constructor
  · decide
  · decide

/-- C9 (amended): when no line of the processed text (the response after
fence and reasoning-block removal) begins a function definition or a
decorator, the extractor returns that processed text trimmed and wrapped
in newlines (not the raw input, which the counterexample refutes); and
for every input the output is nonempty and begins and ends with a
newline. -/
theorem C9_fallback_and_wrapping :
    (∀ code : List Char,
      (∀ l ∈ splitLines (preClean code), startsDef l = false) →
      clean_code code = '\n' :: stripL (preClean code) ++ ['\n']) ∧
    (∀ code : List Char, clean_code code ≠ [] ∧
      (clean_code code).head? = some '\n' ∧ (clean_code code).getLast? = some '\n') := by
  constructor
  · intro code h
    exact cleanAfterSubs_fallback (preClean code) h
  · intro code
    obtain ⟨X, hX⟩ := cleanAfterSubs_shape (preClean code)
    have hc : clean_code code = '\n' :: X ++ ['\n'] := hX
    rw [hc]
    refine ⟨by simp, rfl, List.getLast?_concat _⟩

/-- C9 witness: a plain response with no function/decorator line falls
back to its trimmed (identical, fence-free) text wrapped in newlines, and
the wrapping holds at a concrete input. -/
theorem C9_fallback_and_wrapping_witness :
    clean_code ("hello world".data) = '\n' :: stripL (preClean ("hello world".data)) ++ ['\n'] ∧
    (clean_code ("hello world".data)).head? = some '\n' :=
  ⟨C9_fallback_and_wrapping.1 ("hello world".data) (by decide),
   (C9_fallback_and_wrapping.2 ("hello world".data)).2.1⟩

end Bench
